import Mathlib

/-
Verification development for the CAI_Webex retrieval and conversation code.

Shallow embedding of:
  * datamanagement/db/vector_query.py   (VectorSearch.rerank_results, VectorSearch.hybrid_search)
  * apigateway/services/rag_engine.py   (RagEngine.is_junk_chunk, RagEngine.is_authoritative_url,
                                         RagEngine.get_full_threads, RagEngine.build_context,
                                         RagEngine.generate_response)
  * apigateway/services/langgraphtool.py  (start_node, summarize_conversation, should_continue)
  * coreservices/services/langgraphtool.py (start_node, summarize_conversation, should_summarize)

Modelling conventions:
  * Relevance scores are floats in the source; they are modelled as integers, which
    preserves every order-theoretic fact the theorems below use (comparisons only,
    no arithmetic on scores).
  * Mongo documents are records with the projected fields; a field that may be
    absent or None in a document (thread_url, score, rerank_score) is an Option.
  * External collaborators (the cross-encoder scorer, the Mongo dense/sparse queries,
    the per-thread fetch, the regex engine for the boilerplate denylist, and the
    iteration order of a Python set) are explicit function/list parameters.
  * Python string methods lower/strip/join and the substring test are re-implemented
    over the character list of the string so that all definitions evaluate inside
    the kernel. They agree with Python on the ASCII inputs used here.
-/

/-- Python text.lower(), restricted to the ASCII case mapping used by the inputs here. -/
def pyLower (s : String) : String := ⟨s.data.map Char.toLower⟩

/-- Python text.strip(): remove leading and trailing whitespace. -/
def pyStrip (s : String) : String :=
  ⟨((s.data.dropWhile Char.isWhitespace).reverse.dropWhile Char.isWhitespace).reverse⟩

/-- Python membership test pat in s on strings: pat occurs as a contiguous substring of s. -/
def strContains (s pat : String) : Bool :=
  (List.range (s.data.length + 1)).any (fun i => pat.data.isPrefixOf (s.data.drop i))

/-- Python sep.join(xs). -/
def pyJoin (sep : String) : List String → String
  | [] => ""
  | [x] => x
  | x :: y :: xs => x ++ sep ++ pyJoin sep (y :: xs)

/-- A retrieval candidate: one Mongo document as projected by similarity_search and
sparse_search in vector_query.py (fields thread_url, query_chunk, response_chunk, score),
plus the rerank_score key that rerank_results writes into the same dict. -/
structure Candidate where
  thread_url : Option String
  query_chunk : String
  response_chunk : String
  score : Option Int
  rerank_score : Option Int
deriving DecidableEq, Repr

/-- vector_query.py, hybrid_search inner get_score:
res.get("rerank_score", res.get("score", 0)). -/
def getScore (res : Candidate) : Int := res.rerank_score.getD (res.score.getD 0)

/-- The sort key used by rerank_results: x["rerank_score"] (always present there,
because rerank_results first writes it into every result). -/
def rerankKey (res : Candidate) : Int := res.rerank_score.getD 0

/-- One insertion step of a stable descending sort by rerankKey. An element is placed
before the first element whose key is not larger, so elements with equal keys keep
their original relative order, as CPython sorted(key=..., reverse=True) guarantees. -/
def insertDesc (x : Candidate) : List Candidate → List Candidate
  | [] => [x]
  | y :: ys => if rerankKey y ≤ rerankKey x then x :: y :: ys else y :: insertDesc x ys

/-- Stable descending sort by rerankKey; extensionally equal to the stable
sorted(results, key=lambda x: x["rerank_score"], reverse=True) of the source. -/
def sortByRerankDesc : List Candidate → List Candidate
  | [] => []
  | x :: xs => insertDesc x (sortByRerankDesc xs)

/-- vector_query.py, VectorSearch.rerank_results. The cross-encoder batch
model.predict(pairs) is abstracted by the scoring function f applied to each
(query, response_chunk) pair; top_k_rerank is the configured cut. -/
def rerank_results (f : String → String → Int) (top_k_rerank : Nat) (query : String)
    (results : List Candidate) : List Candidate :=
  match results with
  | [] => []
  | r :: rs =>
    let scored := (r :: rs).map
      (fun res => { res with rerank_score := some (f query res.response_chunk) })
    (sortByRerankDesc scored).take top_k_rerank

/-- Lookup in the best_per_thread dict (association list in insertion order). -/
def lookupUrl (url : String) : List (String × Candidate) → Option Candidate
  | [] => none
  | p :: m => if p.1 = url then some p.2 else lookupUrl url m

/-- Overwrite the value stored under an existing key; a Python dict keeps the key at
its original position when its value is reassigned. -/
def setBest (url : String) (res : Candidate) (m : List (String × Candidate)) :
    List (String × Candidate) :=
  m.map (fun p => if p.1 = url then (url, res) else p)

/-- vector_query.py, hybrid_search loop body: for res in vector_results + sparse_results,
skip a result whose thread_url is missing, None or empty (falsy), otherwise keep the
higher-scoring result per thread_url, first writer winning ties. -/
def insertBest (m : List (String × Candidate)) (res : Candidate) :
    List (String × Candidate) :=
  match res.thread_url with
  | none => m
  | some url =>
    if url = "" then m
    else
      match lookupUrl url m with
      | none => m ++ [(url, res)]
      | some best => if getScore best < getScore res then setBest url res m else m

/-- vector_query.py, hybrid_search: the best_per_thread dict after the merge loop. -/
def best_per_thread (results : List Candidate) : List (String × Candidate) :=
  results.foldl insertBest []

/-- vector_query.py, VectorSearch.hybrid_search, with the two Mongo query results
passed in as lists: deduplicate by thread_url keeping the best-scored result per
thread (combined_results = list(best_per_thread.values())), then rerank. -/
def hybrid_search (f : String → String → Int) (top_k_rerank : Nat) (query : String)
    (vector_results sparse_results : List Candidate) : List Candidate :=
  rerank_results f top_k_rerank query
    ((best_per_thread (vector_results ++ sparse_results)).map Prod.snd)

/-- rag_engine.py, module constant AUTHORITATIVE_DOMAINS. -/
def AUTHORITATIVE_DOMAINS : List String :=
  ["help.webex.com", "support.cisco.com", "www.webex.com"]

/-- rag_engine.py, RagEngine.is_authoritative_url:
any(domain in url for domain in AUTHORITATIVE_DOMAINS). -/
def is_authoritative_url (url : String) : Bool :=
  AUTHORITATIVE_DOMAINS.any (fun domain => strContains url domain)

/-- Number of characters of text outside [a-zA-Z0-9], i.e.
len(re.sub(r"[a-zA-Z0-9]", "", text)). -/
def countNonAlnum (text : String) : Nat :=
  (text.data.filter (fun c => !c.isAlphanum)).length

/-- rag_engine.py, RagEngine.is_junk_chunk. The first two tests are embedded exactly:
falsy or stripped length below 30, then non-alphanumeric fraction above 0.5
(n / max(1, len) > 0.5 iff 2 * n > max(1, len)). The final regex denylist walk over
junk_patterns is abstracted by the parameter patMatch (the regex engine is external);
every theorem below that meets this stage either holds for all patMatch or fires on
the length test, which is reached first. -/
def is_junk_chunk (patMatch : String → Bool) (text : String) : Bool :=
  if text = "" || (pyStrip text).length < 30 then true
  else if 2 * countNonAlnum text > max 1 text.length then true
  else patMatch text

/-- rag_engine.py, RagEngine.build_context: "\n\n".join of the response chunks. -/
def build_context (top_chunks : List Candidate) : String :=
  pyJoin "\n\n" (top_chunks.map (fun chunk => chunk.response_chunk))

/-- The thread_url of a reranked chunk as read by get_full_threads (chunk["thread_url"]).
Hybrid-search output always carries a non-empty URL (see the C10 theorem), so the
default never fires on the inputs generate_response produces. -/
def chunkUrl (chunk : Candidate) : String := chunk.thread_url.getD ""

/-- rag_engine.py, get_full_threads:
sorted(thread_urls, key=self.is_authoritative_url, reverse=True). CPython sorted is
stable, and for a Bool key with reverse=True the stable descending sort is exactly:
the key-true elements in input order, then the key-false elements in input order. -/
def sorted_thread_urls (urls : List String) : List String :=
  urls.filter is_authoritative_url ++ urls.filter (fun url => !is_authoritative_url url)

/-- rag_engine.py, get_full_threads loop body for one url: the reranked chunks of the
thread in arrival order, junk-filtered, backfilled from the bounded per-thread fetch
(collection.find(...).limit(5), abstracted as dbFetch) when fewer than
max_chunks_per_thread survive, then capped and joined. -/
def thread_text (patMatch : String → Bool) (dbFetch : String → List String)
    (reranked_chunks : List Candidate) (max_chunks_per_thread : Nat) (url : String) :
    String :=
  let candidate_chunks :=
    (reranked_chunks.filter (fun c => chunkUrl c == url)).map (fun c => c.response_chunk)
  let filtered := candidate_chunks.filter (fun c => !is_junk_chunk patMatch c)
  let filtered2 :=
    if filtered.length < max_chunks_per_thread then
      filtered ++ ((dbFetch url).take 5).filter
        (fun c => !is_junk_chunk patMatch c && !(filtered.contains c))
    else filtered
  pyJoin "\n\n" (filtered2.take max_chunks_per_thread)

/-- rag_engine.py, RagEngine.get_full_threads. thread_urls is a Python set, whose
iteration order is unspecified (string hashing is randomized per process), so the
enumeration of the distinct URLs is the explicit parameter setOrder; the returned
dict is the insertion-ordered association list over the authority-sorted URLs. -/
def get_full_threads (patMatch : String → Bool) (dbFetch : String → List String)
    (setOrder : List String) (reranked_chunks : List Candidate)
    (max_chunks_per_thread : Nat) : List (String × String) :=
  (sorted_thread_urls setOrder).map
    (fun url => (url, thread_text patMatch dbFetch reranked_chunks max_chunks_per_thread url))

/-- The distinct chunk URLs in order of first appearance (the arrival order that the
spec refers to; the source loses this order by putting the URLs into a set). -/
def arrivalUrls (chunks : List Candidate) : List String :=
  chunks.foldl
    (fun acc c => if acc.contains (chunkUrl c) then acc else acc ++ [chunkUrl c]) []

/-- rag_engine.py, RagEngine.generate_response, success path. Collaborators are
parameters: hybrid is perform_hybrid_search, f the cross-encoder, dbFetch the
per-thread fetch, enumUrls the set-iteration order used inside get_full_threads.
The Bool of the result records whether retrieval was attempted (the guard
"if not query" returns the invalid-input message before any search). -/
def generate_response (hybrid : String → List Candidate) (f : String → String → Int)
    (patMatch : String → Bool) (dbFetch : String → List String)
    (enumUrls : List Candidate → List String) (top_k_rerank : Nat) (query : String) :
    String × Bool :=
  if query = "" then ("Query cannot be empty.", false)
  else
    match hybrid query with
    | [] => ("No relevant documents found.", true)
    | r :: rs =>
      let top_chunks := rerank_results f top_k_rerank query (r :: rs)
      let thread_contexts := get_full_threads patMatch dbFetch (enumUrls top_chunks) top_chunks 2
      match thread_contexts with
      | [] => (build_context top_chunks, true)
      | tc :: tcs =>
        (pyJoin "\n\n" (((tc :: tcs).map Prod.snd).filter (fun ctx => !(pyStrip ctx == ""))), true)

/-- A conversation message as far as the state machine observes it: langgraph
messages carry an id (used by RemoveMessage-based pruning) and content. -/
structure Message where
  id : String
  content : String
deriving DecidableEq, Repr

/-- The State TypedDict of both langgraphtool.py variants, as a total record
(the .get defaults of the source make every field effectively present). -/
structure ConvState where
  query : String
  context : String
  response : String
  messages : List Message
  summary : String
  user_name : String
deriving DecidableEq, Repr

/-- The routing decisions the decide-gate functions return: "smalltalk",
"summarize_conversation", or END. -/
inductive Route where
  | smalltalk
  | summarize
  | endConv
deriving DecidableEq, Repr

/-- apigateway/services/langgraphtool.py, should_continue: stop_words set. -/
def stop_words : List String := ["bye", "goodbye", "stop", "exit", "thanks"]

/-- apigateway/services/langgraphtool.py, should_continue: summary_keywords set. -/
def summary_keywords : List String :=
  ["summary", "summarize", "give me a summary", "what\x27s the summary",
   "tell me the summary", "provide summary", "recap"]

/-- should_continue normalization: state.get("query", "").lower().strip(). -/
def normalized_query (query : String) : String := pyStrip (pyLower query)

/-- apigateway/services/langgraphtool.py, should_continue (lines 185-209). -/
def should_continue (state : ConvState) : Route :=
  let query := normalized_query state.query
  if stop_words.contains query = true ∨ state.messages.length > 20 then Route.endConv
  else if summary_keywords.any (fun keyword => strContains query keyword) then Route.summarize
  else Route.smalltalk

/-- coreservices/services/langgraphtool.py, should_summarize (lines 217-226):
the only test is len(messages) > 6. -/
def should_summarize (state : ConvState) : Route :=
  if state.messages.length > 6 then Route.summarize else Route.endConv

/-- apigateway/services/langgraphtool.py, summarize_conversation: the messages value
the node returns, messages[-2:] if len(messages) > 2 else messages. This is only the
channel update the node emits; State.messages is declared with the add_messages
reducer, so the history the state retains is add_messages_merge of the prior
history with this value, not this value itself. -/
def apigw_pruned_messages (messages : List Message) : List Message :=
  if messages.length > 2 then messages.drop (messages.length - 2) else messages

/-- coreservices/services/langgraphtool.py, summarize_conversation pruning step:
the ids of messages[:-2], each wrapped in a RemoveMessage. -/
def core_removed_ids (messages : List Message) : List String :=
  (messages.take (messages.length - 2)).map Message.id

/-- The add_messages reducer of langgraph (external library) applied to a batch of
RemoveMessage updates: every message whose id is listed is deleted from the kept
history. Modelled from the documented reducer behaviour; the repository only
constructs the RemoveMessage list. -/
def apply_remove_messages (messages : List Message) (ids : List String) : List Message :=
  messages.filter (fun m => !(ids.contains m.id))

/-- One step of the add_messages reducer of langgraph (external library) for a plain
message update: a message whose id already exists in the kept history replaces that
entry in place; a message with a new id is appended. The reducer never truncates.
Modelled from the documented reducer behaviour; the repository only declares the
reducer on State.messages. -/
def upsertMessage (left : List Message) (m : Message) : List Message :=
  if (left.map Message.id).contains m.id = true then
    left.map (fun x => if x.id = m.id then m else x)
  else left ++ [m]

/-- The add_messages reducer applied to a batch of plain message updates, merging
each update into the kept history in order. -/
def add_messages_merge (left right : List Message) : List Message :=
  right.foldl upsertMessage left

/-- apigateway/services/langgraphtool.py, start_node (lines 25-43): note that the
summary field is set to the empty string unconditionally. -/
def apigw_start_node (state : ConvState) : ConvState :=
  { query := state.query, messages := state.messages, context := "", summary := "",
    response := "", user_name := state.user_name }

/-- coreservices/services/langgraphtool.py, start_node (lines 28-48): the summary
field is carried over via state.get("summary", ""). -/
def core_start_node (state : ConvState) : ConvState :=
  { query := state.query, messages := state.messages, context := "",
    summary := state.summary, response := "", user_name := state.user_name }

/-- The descending-order relation on reranked candidates used by the sort. -/
def DescOrder (a b : Candidate) : Prop := rerankKey b ≤ rerankKey a

theorem insertDesc_perm (x : Candidate) (l : List Candidate) :
    (insertDesc x l).Perm (x :: l) := by
  induction l with
  | nil => simp [insertDesc]
  | cons y ys ih =>
    by_cases h : rerankKey y ≤ rerankKey x
    · simp [insertDesc, h]
    · simp only [insertDesc, if_neg h]
      exact List.Perm.trans (List.Perm.cons y ih) (List.Perm.swap x y ys)

theorem sortByRerankDesc_perm (l : List Candidate) : (sortByRerankDesc l).Perm l := by
  induction l with
  | nil => simp [sortByRerankDesc]
  | cons x xs ih =>
    exact List.Perm.trans (insertDesc_perm x (sortByRerankDesc xs)) (List.Perm.cons x ih)

theorem insertDesc_sorted (x : Candidate) (l : List Candidate)
    (h : l.Pairwise DescOrder) : (insertDesc x l).Pairwise DescOrder := by
  induction l with
  | nil => simp [insertDesc, List.Pairwise]
  | cons y ys ih =>
    rcases List.pairwise_cons.mp h with ⟨hy, hys⟩
    by_cases hxy : rerankKey y ≤ rerankKey x
    · simp only [insertDesc, if_pos hxy]
      refine List.pairwise_cons.mpr ⟨?_, h⟩
      intro z hz
      rcases List.mem_cons.mp hz with rfl | hz
      · exact hxy
      · exact le_trans (hy z hz) hxy
    · simp only [insertDesc, if_neg hxy]
      refine List.pairwise_cons.mpr ⟨?_, ih hys⟩
      intro z hz
      have hz2 : z ∈ x :: ys := (insertDesc_perm x ys).mem_iff.mp hz
      rcases List.mem_cons.mp hz2 with rfl | hz2
      · exact le_of_lt (lt_of_not_le hxy)
      · exact hy z hz2

theorem sortByRerankDesc_sorted (l : List Candidate) :
    (sortByRerankDesc l).Pairwise DescOrder := by
  induction l with
  | nil => simp [sortByRerankDesc, List.Pairwise]
  | cons x xs ih => exact insertDesc_sorted x (sortByRerankDesc xs) ih

theorem mem_rerank_results {f : String → String → Int} {k : Nat} {q : String}
    {rs : List Candidate} {r : Candidate} (h : r ∈ rerank_results f k q rs) :
    ∃ c ∈ rs, r = { c with rerank_score := some (f q c.response_chunk) } := by
  match rs with
  | [] => simp [rerank_results] at h
  | c0 :: cs =>
    simp only [rerank_results] at h
    have h1 := (List.take_sublist k _).mem h
    have h2 := (sortByRerankDesc_perm _).mem_iff.mp h1
    rcases List.mem_map.mp h2 with ⟨c, hc, hr⟩
    exact ⟨c, hc, hr.symm⟩

/-- C2. Rerank (rerank_results) returns a list ordered by rerank_score descending,
of length at most top_k_rerank, every returned result carrying an assigned
rerank_score; the empty candidate list yields the empty list, not an error. -/
theorem rerank_results_sorted_bounded (f : String → String → Int) (k : Nat)
    (q : String) (rs : List Candidate) :
    (rerank_results f k q rs).length ≤ k ∧
    (rerank_results f k q rs).Pairwise DescOrder ∧
    (∀ r ∈ rerank_results f k q rs, (r.rerank_score).isSome = true) ∧
    (rs = [] → rerank_results f k q rs = []) := by
  refine ⟨?_, ?_, ?_, ?_⟩
  · match rs with
    | [] => simp [rerank_results]
    | c0 :: cs => simp only [rerank_results]; exact List.length_take_le k _
  · match rs with
    | [] => simp [rerank_results, List.Pairwise]
    | c0 :: cs =>
      simp only [rerank_results]
      exact List.Pairwise.sublist (List.take_sublist k _) (sortByRerankDesc_sorted _)
  · intro r hr
    rcases mem_rerank_results hr with ⟨c, _, rfl⟩
    rfl
  · intro h; subst h; rfl

/-- Witness for C2 at a concrete input: the empty candidate list maps to the empty
output and the bound holds there. -/
theorem rerank_results_sorted_bounded_witness :
    rerank_results (fun _ _ => 0) 5 "q" [] = [] :=
  (rerank_results_sorted_bounded (fun _ _ => 0) 5 "q" []).2.2.2 rfl

theorem lookupUrl_eq_none {url : String} {m : List (String × Candidate)} :
    lookupUrl url m = none ↔ url ∉ m.map Prod.fst := by
  induction m with
  | nil => simp [lookupUrl]
  | cons p m ih =>
    simp only [lookupUrl, List.map_cons, List.mem_cons]
    by_cases h : p.1 = url
    · simp [h]
    · simp only [if_neg h, ih]
      constructor
      · intro hn hor
        rcases hor with h1 | h2
        · exact h h1.symm
        · exact hn h2
      · intro hn hm
        exact hn (Or.inr hm)

theorem lookupUrl_some_mem {url : String} {m : List (String × Candidate)} {c : Candidate}
    (h : lookupUrl url m = some c) : (url, c) ∈ m := by
  induction m with
  | nil => simp [lookupUrl] at h
  | cons p m ih =>
    by_cases hp : p.1 = url
    · simp only [lookupUrl, if_pos hp] at h
      rw [Option.some_inj] at h
      subst h
      rw [← hp]
      exact List.mem_cons_self p m
    · simp only [lookupUrl, if_neg hp] at h
      exact List.mem_cons_of_mem p (ih h)

theorem setBest_map_fst (url : String) (res : Candidate) (m : List (String × Candidate)) :
    (setBest url res m).map Prod.fst = m.map Prod.fst := by
  unfold setBest
  rw [List.map_map]
  apply List.map_congr_left
  intro p _
  by_cases h : p.1 = url
  · simp only [Function.comp_apply, if_pos h]
    exact h.symm
  · simp only [Function.comp_apply, if_neg h]

theorem mem_setBest {q : String × Candidate} {url : String} {res : Candidate}
    {m : List (String × Candidate)} (h : q ∈ setBest url res m) :
    q = (url, res) ∨ (q ∈ m ∧ q.1 ≠ url) := by
  rcases List.mem_map.mp h with ⟨p, hp, hq⟩
  by_cases hpu : p.1 = url
  · left
    rw [← hq]
    simp [hpu]
  · right
    rw [← hq]
    simp only [if_neg hpu]
    exact ⟨hp, hpu⟩

theorem entry_unique {m : List (String × Candidate)} {url : String} {c : Candidate}
    (hnd : (m.map Prod.fst).Nodup) (hc : (url, c) ∈ m) :
    ∀ p ∈ m, p.1 = url → p = (url, c) := by
  induction m with
  | nil => simp at hc
  | cons p0 m ih =>
    rw [List.map_cons, List.nodup_cons] at hnd
    obtain ⟨hp0, hnd'⟩ := hnd
    intro p hp hpu
    rcases List.mem_cons.mp hc with hc0 | hc1
    · rcases List.mem_cons.mp hp with rfl | hp1
      · exact hc0.symm
      · exfalso
        apply hp0
        have h1 : p0.1 = url := by rw [← hc0]
        rw [h1, ← hpu]
        exact List.mem_map_of_mem Prod.fst hp1
    · rcases List.mem_cons.mp hp with rfl | hp1
      · exfalso
        apply hp0
        rw [hpu]
        exact List.mem_map_of_mem Prod.fst hc1
      · exact ih hnd' hc1 p hp1 hpu

/-- The loop invariant of the hybrid-search merge: keys are distinct, each stored
result carries its own non-empty key as thread_url, each stored result has the
maximal score among the processed results of its thread, and every processed result
with a usable thread_url has a representative in the dict. -/
def MergeInv (processed : List Candidate) (m : List (String × Candidate)) : Prop :=
  (m.map Prod.fst).Nodup ∧
  (∀ p ∈ m, p.2.thread_url = some p.1 ∧ p.1 ≠ "") ∧
  (∀ p ∈ m, ∀ c ∈ processed, c.thread_url = some p.1 → getScore c ≤ getScore p.2) ∧
  (∀ c ∈ processed, ∀ u, c.thread_url = some u → u ≠ "" → u ∈ m.map Prod.fst)

theorem insertBest_inv (res : Candidate) (processed : List Candidate)
    (m : List (String × Candidate)) (h : MergeInv processed m) :
    MergeInv (processed ++ [res]) (insertBest m res) := by
  obtain ⟨hnd, hurl, hmax, hcomp⟩ := h
  unfold insertBest
  cases hres : res.thread_url with
  | none =>
    refine ⟨hnd, hurl, ?_, ?_⟩
    · intro p hp c hc hcu
      rcases List.mem_append.mp hc with hc | hc
      · exact hmax p hp c hc hcu
      · have hc2 := List.mem_singleton.mp hc
        subst hc2
        rw [hres] at hcu
        cases hcu
    · intro c hc u hcu hne
      rcases List.mem_append.mp hc with hc | hc
      · exact hcomp c hc u hcu hne
      · have hc2 := List.mem_singleton.mp hc
        subst hc2
        rw [hres] at hcu
        cases hcu
  | some url =>
    by_cases hu : url = ""
    · simp only [if_pos hu]
      refine ⟨hnd, hurl, ?_, ?_⟩
      · intro p hp c hc hcu
        rcases List.mem_append.mp hc with hc | hc
        · exact hmax p hp c hc hcu
        · have hc2 := List.mem_singleton.mp hc
          subst hc2
          rw [hres] at hcu
          exfalso
          exact (hurl p hp).2 (by rw [← Option.some_inj.mp hcu, hu])
      · intro c hc u hcu hne
        rcases List.mem_append.mp hc with hc | hc
        · exact hcomp c hc u hcu hne
        · have hc2 := List.mem_singleton.mp hc
          subst hc2
          rw [hres] at hcu
          exact absurd (by rw [← Option.some_inj.mp hcu, hu]) hne
    · simp only [if_neg hu]
      cases hlk : lookupUrl url m with
      | none =>
        have hnotmem : url ∉ m.map Prod.fst := lookupUrl_eq_none.mp hlk
        refine ⟨?_, ?_, ?_, ?_⟩
        · rw [List.map_append]
          refine List.Nodup.append hnd (List.nodup_singleton url) ?_
          intro a ha hb
          rw [List.mem_singleton.mp hb] at ha
          exact hnotmem ha
        · intro p hp
          rcases List.mem_append.mp hp with hp | hp
          · exact hurl p hp
          · rw [List.mem_singleton.mp hp]
            exact ⟨hres, hu⟩
        · intro p hp c hc hcu
          rcases List.mem_append.mp hp with hpm | hpn
          · rcases List.mem_append.mp hc with hcm | hcn
            · exact hmax p hpm c hcm hcu
            · have hc2 := List.mem_singleton.mp hcn
              subst hc2
              rw [hres] at hcu
              exfalso
              apply hnotmem
              rw [Option.some_inj.mp hcu]
              exact List.mem_map_of_mem Prod.fst hpm
          · have hp2 := List.mem_singleton.mp hpn
            subst hp2
            rcases List.mem_append.mp hc with hcm | hcn
            · exfalso
              exact hnotmem (hcomp c hcm url hcu hu)
            · have hc2 := List.mem_singleton.mp hcn
              subst hc2
              exact le_refl _
        · intro c hc u hcu hne
          rcases List.mem_append.mp hc with hc | hc
          · rw [List.map_append]
            exact List.mem_append_left _ (hcomp c hc u hcu hne)
          · have hc2 := List.mem_singleton.mp hc
            subst hc2
            rw [hres] at hcu
            rw [List.map_append, ← Option.some_inj.mp hcu]
            simp
      | some best =>
        have hbestmem : (url, best) ∈ m := lookupUrl_some_mem hlk
        by_cases hsc : getScore best < getScore res
        · simp only [if_pos hsc]
          refine ⟨?_, ?_, ?_, ?_⟩
          · rw [setBest_map_fst]
            exact hnd
          · intro p hp
            rcases mem_setBest hp with rfl | ⟨hp1, _⟩
            · exact ⟨hres, hu⟩
            · exact hurl p hp1
          · intro p hp c hc hcu
            rcases mem_setBest hp with rfl | ⟨hp1, hpne⟩
            · rcases List.mem_append.mp hc with hc | hc
              · exact le_trans (hmax (url, best) hbestmem c hc hcu) (le_of_lt hsc)
              · have hc2 := List.mem_singleton.mp hc
                subst hc2
                exact le_refl _
            · rcases List.mem_append.mp hc with hc | hc
              · exact hmax p hp1 c hc hcu
              · have hc2 := List.mem_singleton.mp hc
                subst hc2
                rw [hres] at hcu
                exact absurd (Option.some_inj.mp hcu).symm hpne
          · intro c hc u hcu hne
            rw [setBest_map_fst]
            rcases List.mem_append.mp hc with hc | hc
            · exact hcomp c hc u hcu hne
            · have hc2 := List.mem_singleton.mp hc
              subst hc2
              rw [hres] at hcu
              rw [← Option.some_inj.mp hcu]
              exact List.mem_map_of_mem Prod.fst hbestmem
        · simp only [if_neg hsc]
          refine ⟨hnd, hurl, ?_, ?_⟩
          · intro p hp c hc hcu
            rcases List.mem_append.mp hc with hc | hc
            · exact hmax p hp c hc hcu
            · have hc2 := List.mem_singleton.mp hc
              subst hc2
              rw [hres] at hcu
              have hp2 : p = (url, best) :=
                entry_unique hnd hbestmem p hp (Option.some_inj.mp hcu).symm
              rw [hp2]
              exact not_lt.mp hsc
          · intro c hc u hcu hne
            rcases List.mem_append.mp hc with hc | hc
            · exact hcomp c hc u hcu hne
            · have hc2 := List.mem_singleton.mp hc
              subst hc2
              rw [hres] at hcu
              rw [← Option.some_inj.mp hcu]
              exact List.mem_map_of_mem Prod.fst hbestmem

theorem foldl_insertBest_inv (rs : List Candidate) :
    ∀ processed m, MergeInv processed m →
      MergeInv (processed ++ rs) (rs.foldl insertBest m) := by
  induction rs with
  | nil =>
    intro processed m h
    simpa using h
  | cons r rs ih =>
    intro processed m h
    have h2 := ih (processed ++ [r]) (insertBest m r) (insertBest_inv r processed m h)
    simpa [List.append_assoc] using h2

theorem best_per_thread_inv (results : List Candidate) :
    MergeInv results (best_per_thread results) := by
  have h0 : MergeInv [] [] := by
    refine ⟨List.nodup_nil, ?_, ?_, ?_⟩ <;> simp
  simpa using foldl_insertBest_inv results [] [] h0

theorem best_per_thread_snd_pairwise (results : List Candidate) :
    ((best_per_thread results).map Prod.snd).Pairwise
      (fun a b => a.thread_url ≠ b.thread_url) := by
  obtain ⟨hnd, hurl, -, -⟩ := best_per_thread_inv results
  rw [List.pairwise_map]
  have hkeys : (best_per_thread results).Pairwise (fun p q => p.1 ≠ q.1) :=
    List.pairwise_map.mp hnd
  refine List.Pairwise.imp_of_mem ?_ hkeys
  intro p q hp hq hne
  rw [(hurl p hp).1, (hurl q hq).1]
  intro hsome
  exact hne (Option.some_inj.mp hsome)

theorem rerank_results_pairwise_url (f : String → String → Int) (k : Nat) (q : String)
    (rs : List Candidate)
    (h : rs.Pairwise (fun a b => a.thread_url ≠ b.thread_url)) :
    (rerank_results f k q rs).Pairwise (fun a b => a.thread_url ≠ b.thread_url) := by
  match rs with
  | [] => exact List.Pairwise.nil
  | c0 :: cs =>
    simp only [rerank_results]
    apply List.Pairwise.sublist (List.take_sublist _ _)
    have hsym : ∀ {a b : Candidate}, a.thread_url ≠ b.thread_url →
        b.thread_url ≠ a.thread_url := fun hab => hab.symm
    rw [List.Perm.pairwise_iff hsym (sortByRerankDesc_perm _)]
    rw [List.pairwise_map]
    exact h

/-- C1. Hybrid search never returns two results for the same thread: the merge keeps,
for each thread_url, a single representative whose score dominates every merged
candidate of that thread, and the reranked output is pairwise distinct in thread_url. -/
theorem hybrid_search_thread_dedup (f : String → String → Int) (k : Nat) (q : String)
    (vector_results sparse_results : List Candidate) :
    (hybrid_search f k q vector_results sparse_results).Pairwise
      (fun a b => a.thread_url ≠ b.thread_url) ∧
    ∀ p ∈ best_per_thread (vector_results ++ sparse_results),
      ∀ c ∈ vector_results ++ sparse_results,
        c.thread_url = some p.1 → getScore c ≤ getScore p.2 := by
  constructor
  · exact rerank_results_pairwise_url f k q _
      (best_per_thread_snd_pairwise (vector_results ++ sparse_results))
  · exact (best_per_thread_inv (vector_results ++ sparse_results)).2.2.1

/-- Two candidates of the same thread with different scores, plus one candidate
without a usable thread_url, used to exercise the merge on concrete data. -/
def candLow : Candidate :=
  { thread_url := some "https://community.cisco.com/t5/webex/q1", query_chunk := "q1",
    response_chunk := "a1", score := some 1, rerank_score := none }

def candHigh : Candidate :=
  { thread_url := some "https://community.cisco.com/t5/webex/q1", query_chunk := "q2",
    response_chunk := "a2", score := some 5, rerank_score := none }

def candNoUrl : Candidate :=
  { thread_url := none, query_chunk := "q3", response_chunk := "a3",
    score := some 9, rerank_score := none }

/-- Witness for C1 at a concrete input: one thread with two candidates plus one
candidate without a thread_url; the output is dedup-ed and the kept representative
dominates the discarded candidate of its thread. -/
theorem hybrid_search_thread_dedup_witness :
    (hybrid_search (fun _ _ => 0) 5 "q" [candLow] [candHigh, candNoUrl]).Pairwise
      (fun a b => a.thread_url ≠ b.thread_url) ∧
    getScore candLow ≤ getScore candHigh :=
  ⟨(hybrid_search_thread_dedup (fun _ _ => 0) 5 "q" [candLow] [candHigh, candNoUrl]).1,
   (hybrid_search_thread_dedup (fun _ _ => 0) 5 "q" [candLow] [candHigh, candNoUrl]).2
     ("https://community.cisco.com/t5/webex/q1", candHigh) (by decide)
     candLow (by decide) (by decide)⟩

/-- C10. Every result hybrid_search returns carries a present, non-empty thread_url:
candidates whose thread_url is missing, None, or empty are dropped by the merge and
never reach the output. -/
theorem hybrid_search_drops_missing_urls (f : String → String → Int) (k : Nat)
    (q : String) (vector_results sparse_results : List Candidate) :
    ∀ r ∈ hybrid_search f k q vector_results sparse_results,
      ∃ u, r.thread_url = some u ∧ u ≠ "" := by
  intro r hr
  rcases mem_rerank_results hr with ⟨c, hc, rfl⟩
  rcases List.mem_map.mp hc with ⟨p, hp, rfl⟩
  obtain ⟨-, hurl, -, -⟩ := best_per_thread_inv (vector_results ++ sparse_results)
  exact ⟨p.1, (hurl p hp).1, (hurl p hp).2⟩

/-- Witness for C10 at a concrete input: the merge of a url-less candidate with a
url-carrying one returns only the latter, with its non-empty url intact. -/
theorem hybrid_search_drops_missing_urls_witness :
    ∃ u, (Candidate.mk (some "https://community.cisco.com/t5/webex/q1") "q2" "a2"
        (some 5) (some 0)).thread_url = some u ∧ u ≠ "" :=
  hybrid_search_drops_missing_urls (fun _ _ => 0) 5 "q" [candNoUrl] [candHigh]
    (Candidate.mk (some "https://community.cisco.com/t5/webex/q1") "q2" "a2"
      (some 5) (some 0)) (by decide)

theorem pairwise_of_mem_auth {R : String → String → Prop} (l : List String)
    (h : ∀ u ∈ l, ∀ v ∈ l, R u v) : l.Pairwise R := by
  induction l with
  | nil => exact List.Pairwise.nil
  | cons x xs ih =>
    refine List.pairwise_cons.mpr ⟨?_, ?_⟩
    · intro v hv
      exact h x (List.mem_cons_self x xs) v (List.mem_cons_of_mem x hv)
    · exact ih (fun u hu v hv =>
        h u (List.mem_cons_of_mem x hu) v (List.mem_cons_of_mem x hv))

/-- C7 (amended). The thread order produced by get_full_threads is exactly the stable
authority sort of the URL-set enumeration: every authoritative URL precedes every
non-authoritative one, the sort is a permutation of the enumeration, and within each
authority class the enumeration order (not the arrival order of the reranked chunks)
is kept. -/
theorem get_full_threads_authority_order (patMatch : String → Bool)
    (dbFetch : String → List String) (setOrder : List String)
    (reranked_chunks : List Candidate) (k : Nat) :
    (get_full_threads patMatch dbFetch setOrder reranked_chunks k).map Prod.fst =
      sorted_thread_urls setOrder ∧
    (sorted_thread_urls setOrder).Pairwise
      (fun u v => is_authoritative_url v = true → is_authoritative_url u = true) ∧
    (sorted_thread_urls setOrder).Perm setOrder ∧
    (sorted_thread_urls setOrder).filter is_authoritative_url =
      setOrder.filter is_authoritative_url ∧
    (sorted_thread_urls setOrder).filter (fun u => !is_authoritative_url u) =
      setOrder.filter (fun u => !is_authoritative_url u) := by
  refine ⟨?_, ?_, ?_, ?_, ?_⟩
  · simp [get_full_threads, List.map_map, Function.comp_def]
  · rw [sorted_thread_urls, List.pairwise_append]
    refine ⟨?_, ?_, ?_⟩
    · refine pairwise_of_mem_auth _ (fun u hu v _ _ => ?_)
      exact (List.mem_filter.mp hu).2
    · refine pairwise_of_mem_auth _ (fun u hu v hv hva => ?_)
      have := (List.mem_filter.mp hv).2
      rw [hva] at this
      cases this
    · intro u hu v _ _
      exact (List.mem_filter.mp hu).2
  · exact List.filter_append_perm is_authoritative_url setOrder
  · rw [sorted_thread_urls, List.filter_append]
    have h1 : (setOrder.filter is_authoritative_url).filter is_authoritative_url =
        setOrder.filter is_authoritative_url :=
      List.filter_eq_self.mpr (fun a ha => (List.mem_filter.mp ha).2)
    have h2 : (setOrder.filter (fun u => !is_authoritative_url u)).filter
        is_authoritative_url = [] := by
      rw [List.filter_eq_nil_iff]
      intro a ha hpa
      have := (List.mem_filter.mp ha).2
      rw [hpa] at this
      cases this
    rw [h1, h2, List.append_nil]
  · rw [sorted_thread_urls, List.filter_append]
    have h1 : (setOrder.filter is_authoritative_url).filter
        (fun u => !is_authoritative_url u) = [] := by
      rw [List.filter_eq_nil_iff]
      intro a ha hpa
      have := (List.mem_filter.mp ha).2
      rw [this] at hpa
      cases hpa
    have h2 : (setOrder.filter (fun u => !is_authoritative_url u)).filter
        (fun u => !is_authoritative_url u) =
        setOrder.filter (fun u => !is_authoritative_url u) :=
      List.filter_eq_self.mpr (fun a ha => (List.mem_filter.mp ha).2)
    rw [h1, h2, List.nil_append]

/-- Witness for C7 (amended) at a concrete input, read off from the theorem. -/
theorem get_full_threads_authority_order_witness :
    (get_full_threads (fun _ => false) (fun _ => [])
        ["https://a.example.com/thread/1", "https://help.webex.com/article/x"] [] 2).map
      Prod.fst =
      sorted_thread_urls
        ["https://a.example.com/thread/1", "https://help.webex.com/article/x"] :=
  (get_full_threads_authority_order (fun _ => false) (fun _ => [])
    ["https://a.example.com/thread/1", "https://help.webex.com/article/x"] [] 2).1

def urlA : String := "https://a.example.com/thread/1"

def urlB : String := "https://b.example.com/thread/2"

def chunkA : Candidate :=
  { thread_url := some urlA, query_chunk := "qa", response_chunk := "ra",
    score := some 2, rerank_score := none }

def chunkB : Candidate :=
  { thread_url := some urlB, query_chunk := "qb", response_chunk := "rb",
    score := some 4, rerank_score := none }

/-- Counterexample for C7 as stated: with reranked chunks arriving for thread A then
thread B, both non-authoritative, the set enumeration [urlB, urlA] is a legitimate
iteration order of the deduplicated URL set, and under it get_full_threads emits B
before A — equal-authority threads do not keep their arrival order. -/
theorem get_full_threads_tie_order_counterexample :
    arrivalUrls [chunkA, chunkB] = [urlA, urlB] ∧
    [urlB, urlA].Perm (arrivalUrls [chunkA, chunkB]) ∧
    ([urlB, urlA] : List String).Nodup ∧
    is_authoritative_url urlA = false ∧
    is_authoritative_url urlB = false ∧
    (get_full_threads (fun _ => false) (fun _ => []) [urlB, urlA] [chunkA, chunkB] 2).map
      Prod.fst = [urlB, urlA] ∧
    urlB ≠ urlA := by decide

def score_zero : String → String → Int := fun _ _ => 0

def pm_false : String → Bool := fun _ => false

def db_empty : String → List String := fun _ => []

/-- A reranked chunk whose only text fails the junk length test (under every
denylist matcher, because the stripped length is below 30). -/
def junk_chunk_ex : Candidate :=
  { thread_url := some "https://community.example.com/thread/9", query_chunk := "reset",
    response_chunk := "short", score := some 3, rerank_score := none }

def hyb_one : String → List Candidate := fun _ => [junk_chunk_ex]

def hyb_none : String → List Candidate := fun _ => []

def top_chunks_ex : List Candidate :=
  rerank_results score_zero 5 "how do I reset my password" [junk_chunk_ex]

/-- C3 (code bug). At a concrete input on which every per-thread assembled text is
empty after junk filtering and backfill, generate_response does NOT fall back to
build_context: the per-thread dict is a non-empty mapping (one key with an empty
value), the truthiness test "if thread_contexts" therefore succeeds, and the
returned context is the empty string instead of the flat concatenation "short"
that the claimed fallback would produce. -/
theorem generate_response_dead_fallback :
    (get_full_threads pm_false db_empty (arrivalUrls top_chunks_ex) top_chunks_ex 2).all
      (fun p => pyStrip p.2 == "") = true ∧
    get_full_threads pm_false db_empty (arrivalUrls top_chunks_ex) top_chunks_ex 2 ≠ [] ∧
    (generate_response hyb_one score_zero pm_false db_empty arrivalUrls 5
      "how do I reset my password").1 = "" ∧
    build_context top_chunks_ex = "short" ∧
    ("" : String) ≠ "short" := by decide

/-- C9 (amended). generate_response fails fast exactly on the empty query: retrieval
is skipped iff the query equals "", and on "" the invalid-input message is returned. -/
theorem generate_response_empty_guard (hybrid : String → List Candidate)
    (f : String → String → Int) (patMatch : String → Bool)
    (dbFetch : String → List String) (enumUrls : List Candidate → List String)
    (k : Nat) (q : String) :
    ((generate_response hybrid f patMatch dbFetch enumUrls k q).2 = false ↔ q = "") ∧
    (q = "" →
      generate_response hybrid f patMatch dbFetch enumUrls k q =
        ("Query cannot be empty.", false)) := by
  constructor
  · constructor
    · intro h2
      by_contra hq
      rw [generate_response, if_neg hq] at h2
      cases hh : hybrid q with
      | nil =>
        rw [hh] at h2
        simp at h2
      | cons r rs =>
        rw [hh] at h2
        simp only [] at h2
        cases hgt : get_full_threads patMatch dbFetch
            (enumUrls (rerank_results f k q (r :: rs))) (rerank_results f k q (r :: rs)) 2 with
        | nil =>
          rw [hgt] at h2
          simp at h2
        | cons tc tcs =>
          rw [hgt] at h2
          simp at h2
    · intro hq
      simp [generate_response, hq]
  · intro hq
    simp [generate_response, hq]

/-- Witness for C9 (amended): the empty query at concrete collaborators. -/
theorem generate_response_empty_guard_witness :
    generate_response hyb_none score_zero pm_false db_empty arrivalUrls 5 "" =
      ("Query cannot be empty.", false) :=
  (generate_response_empty_guard hyb_none score_zero pm_false db_empty arrivalUrls 5 "").2 rfl

/-- Counterexample for C9 as stated: a whitespace-only query is blank (it strips to
the empty string) yet it is not caught by the guard — retrieval is attempted and the
invalid-input message is not returned. -/
theorem generate_response_blank_query_counterexample :
    pyStrip " " = "" ∧
    (generate_response hyb_none score_zero pm_false db_empty arrivalUrls 5 " ").2 = true ∧
    (generate_response hyb_none score_zero pm_false db_empty arrivalUrls 5 " ").1 ≠
      "Query cannot be empty." := by decide

theorem contains_eq_elem (l : List String) (a : String) : l.contains a = List.elem a l := rfl

theorem filter_not_removed (t d : List Message)
    (h : ((t ++ d).map Message.id).Nodup) :
    (t ++ d).filter (fun m => !((t.map Message.id).contains m.id)) = d := by
  rw [List.map_append] at h
  obtain ⟨-, -, hdisj⟩ := List.nodup_append.mp h
  rw [List.filter_append]
  have hA : t.filter (fun m => !((t.map Message.id).contains m.id)) = [] := by
    rw [List.filter_eq_nil_iff]
    intro a ha hcon
    have hmem : (t.map Message.id).contains a.id = true := by
      rw [contains_eq_elem]
      exact List.elem_iff.mpr (List.mem_map_of_mem Message.id ha)
    rw [hmem] at hcon
    cases hcon
  have hB : d.filter (fun m => !((t.map Message.id).contains m.id)) = d := by
    rw [List.filter_eq_self]
    intro a ha
    have hnotin : a.id ∉ t.map Message.id :=
      fun hin => hdisj hin (List.mem_map_of_mem Message.id ha)
    have hfalse : (t.map Message.id).contains a.id = false := by
      rw [← Bool.not_eq_true, contains_eq_elem]
      intro hc
      exact hnotin (List.elem_iff.mp hc)
    rw [hfalse]
    rfl
  rw [hA, hB, List.nil_append]

theorem apigw_pruned_messages_eq_drop (messages : List Message) :
    apigw_pruned_messages messages = messages.drop (messages.length - 2) := by
  unfold apigw_pruned_messages
  by_cases h : messages.length > 2
  · rw [if_pos h]
  · rw [if_neg h]
    have h0 : messages.length - 2 = 0 := by omega
    rw [h0, List.drop_zero]

theorem upsertMessage_mem (left : List Message) (m : Message)
    (hnd : (left.map Message.id).Nodup) (hm : m ∈ left) :
    upsertMessage left m = left := by
  unfold upsertMessage
  have hc : (left.map Message.id).contains m.id = true := by
    rw [contains_eq_elem]
    exact List.elem_iff.mpr (List.mem_map_of_mem Message.id hm)
  rw [if_pos hc]
  conv_rhs => rw [← List.map_id left]
  apply List.map_congr_left
  intro x hx
  by_cases hid : x.id = m.id
  · rw [if_pos hid]
    exact (List.inj_on_of_nodup_map hnd hx hm hid).symm
  · rw [if_neg hid]
    rfl

theorem add_messages_merge_of_subset (left : List Message)
    (hnd : (left.map Message.id).Nodup) :
    ∀ right, (∀ m ∈ right, m ∈ left) → add_messages_merge left right = left := by
  intro right
  induction right with
  | nil =>
    intro _
    rfl
  | cons r rest ih =>
    intro hsub
    simp only [add_messages_merge, List.foldl_cons] at ih ⊢
    rw [upsertMessage_mem left r hnd (hsub r (List.mem_cons_self r rest))]
    exact ih (fun m hm => hsub m (List.mem_cons_of_mem r hm))

/-- C6 (amended). Pruning to the last two messages holds for the coreservices
Summarize node: it emits RemoveMessage updates for exactly the older prefix, so the
add_messages reducer retains precisely the last 2 entries of the prior history (or
fewer if fewer existed). The apigateway node instead returns messages[-2:] as a
plain update, and the add_messages reducer on State.messages merges those same-id
messages in place: the retained history is unchanged, so that variant performs no
pruning at all. -/
theorem core_summarize_prunes_to_last_two (messages : List Message)
    (hnd : (messages.map Message.id).Nodup) :
    apply_remove_messages messages (core_removed_ids messages) =
      messages.drop (messages.length - 2) ∧
    (apply_remove_messages messages (core_removed_ids messages)).length =
      min 2 messages.length ∧
    add_messages_merge messages (apigw_pruned_messages messages) = messages := by
  have h1 : apply_remove_messages messages (core_removed_ids messages) =
      messages.drop (messages.length - 2) := by
    unfold apply_remove_messages core_removed_ids
    have hsplit := List.take_append_drop (messages.length - 2) messages
    have hmain := filter_not_removed (messages.take (messages.length - 2))
      (messages.drop (messages.length - 2)) (by rw [hsplit]; exact hnd)
    rw [hsplit] at hmain
    exact hmain
  refine ⟨h1, ?_, ?_⟩
  · rw [h1, List.length_drop]
    omega
  · refine add_messages_merge_of_subset messages hnd (apigw_pruned_messages messages) ?_
    intro m hm
    rw [apigw_pruned_messages_eq_drop] at hm
    exact List.drop_subset _ _ hm

def msgsEx : List Message :=
  [⟨"1", "hi"⟩, ⟨"2", "hello, how can I help"⟩, ⟨"3", "how do I add a user"⟩,
   ⟨"4", "open Control Hub and add the user"⟩]

/-- Counterexample for C6 as stated: the apigateway Summarize node returns
messages[-2:], but State.messages is declared with the add_messages reducer, which
merges by id and never truncates; on a four-message history with distinct ids the
retained state still holds all 4 messages, unchanged, not the last 2. -/
theorem apigw_summarize_no_pruning_counterexample :
    msgsEx.length = 4 ∧
    apigw_pruned_messages msgsEx = msgsEx.drop 2 ∧
    add_messages_merge msgsEx (apigw_pruned_messages msgsEx) = msgsEx ∧
    (add_messages_merge msgsEx (apigw_pruned_messages msgsEx)).length = 4 ∧
    (4 : Nat) ≠ 2 := by decide

/-- Witness for C6 (amended) at a concrete four-message history with distinct ids:
the coreservices removal retains the last two entries while the apigateway merge
leaves the history unchanged. -/
theorem core_summarize_prunes_to_last_two_witness :
    apply_remove_messages msgsEx (core_removed_ids msgsEx) =
      msgsEx.drop (msgsEx.length - 2) ∧
    add_messages_merge msgsEx (apigw_pruned_messages msgsEx) = msgsEx :=
  ⟨(core_summarize_prunes_to_last_two msgsEx (by decide)).1,
   (core_summarize_prunes_to_last_two msgsEx (by decide)).2.2⟩

/-- C4 (amended). The apigateway decide gate ends the conversation whenever the
normalized query is a stop word or more than 20 messages have accumulated; the
coreservices gate has no stop-word test (see the counterexample theorem). -/
theorem should_continue_stop_ends (state : ConvState)
    (h : stop_words.contains (normalized_query state.query) = true ∨
      state.messages.length > 20) :
    should_continue state = Route.endConv := by
  simp only [should_continue]
  rw [if_pos h]

def stw_state : ConvState :=
  { query := " BYE ", context := "", response := "", messages := [], summary := "",
    user_name := "" }

/-- Witness for C4 (amended): a turn whose query normalizes to "bye" ends. -/
theorem should_continue_stop_ends_witness : should_continue stw_state = Route.endConv :=
  should_continue_stop_ends stw_state (Or.inl (by decide))

def msgs7 : List Message :=
  [⟨"1", "a"⟩, ⟨"2", "b"⟩, ⟨"3", "c"⟩, ⟨"4", "d"⟩, ⟨"5", "e"⟩, ⟨"6", "f"⟩, ⟨"7", "g"⟩]

def bye_state : ConvState :=
  { query := "bye", context := "", response := "", messages := msgs7, summary := "",
    user_name := "" }

/-- Counterexample for C4 as stated: the coreservices decide gate (should_summarize)
routes a turn whose normalized query is the stop word "bye" to Summarize, not End,
once more than 6 messages have accumulated — it never inspects the query. -/
theorem should_summarize_ignores_stop_query :
    stop_words.contains (normalized_query bye_state.query) = true ∧
    should_summarize bye_state = Route.summarize ∧
    Route.summarize ≠ Route.endConv := by decide

def hello_state : ConvState :=
  { query := "hello there", context := "", response := "", messages := msgs7,
    summary := "", user_name := "" }

/-- Counterexample for C5 as stated: the apigateway decide gate (should_continue)
does not summarize at 7 messages; with no stop condition applying it routes to
smalltalk, because it summarizes only on an explicit summary keyword. -/
theorem should_continue_seven_messages_smalltalk :
    hello_state.messages.length = 7 ∧
    stop_words.contains (normalized_query hello_state.query) = false ∧
    ¬ hello_state.messages.length > 20 ∧
    should_continue hello_state = Route.smalltalk ∧
    Route.smalltalk ≠ Route.summarize := by decide

/-- C5 (amended). The coreservices decide gate transitions to Summarize exactly when
len(messages) > 6; the apigateway gate reaches Summarize only when the normalized
query carries an explicit summary keyword, never on message count alone. -/
theorem should_summarize_iff_more_than_six (state : ConvState) :
    (should_summarize state = Route.summarize ↔ state.messages.length > 6) ∧
    (should_continue state = Route.summarize →
      summary_keywords.any
        (fun keyword => strContains (normalized_query state.query) keyword) = true) := by
  constructor
  · unfold should_summarize
    by_cases h : state.messages.length > 6
    · rw [if_pos h]
      exact ⟨fun _ => h, fun _ => rfl⟩
    · rw [if_neg h]
      exact ⟨fun hc => Route.noConfusion hc, fun h6 => absurd h6 h⟩
  · intro hres
    simp only [should_continue] at hres
    by_cases h1 : stop_words.contains (normalized_query state.query) = true ∨
        state.messages.length > 20
    · rw [if_pos h1] at hres
      exact Route.noConfusion hres
    · rw [if_neg h1] at hres
      by_cases h2 : summary_keywords.any
          (fun keyword => strContains (normalized_query state.query) keyword) = true
      · exact h2
      · rw [if_neg h2] at hres
        exact Route.noConfusion hres

def msgs8 : List Message := ⟨"0", "z"⟩ :: msgs7

/-- Witness for C5 (amended): a state with 8 messages summarizes under the
coreservices gate. -/
theorem should_summarize_iff_more_than_six_witness :
    should_summarize
      { query := "ok", context := "", response := "", messages := msgs8, summary := "",
        user_name := "" } = Route.summarize :=
  (should_summarize_iff_more_than_six
    { query := "ok", context := "", response := "", messages := msgs8, summary := "",
      user_name := "" }).1.mpr (by decide)

/-- C8 (amended). The coreservices Start node preserves the summary and only defaults
the context and response fields; query, messages and user_name pass through. The
apigateway Start node instead resets the summary (see the counterexample theorem). -/
theorem core_start_node_preserves_summary (state : ConvState) :
    (core_start_node state).summary = state.summary ∧
    (core_start_node state).context = "" ∧
    (core_start_node state).response = "" ∧
    (core_start_node state).messages = state.messages ∧
    (core_start_node state).query = state.query ∧
    (core_start_node state).user_name = state.user_name :=
  ⟨rfl, rfl, rfl, rfl, rfl, rfl⟩

def summary_state : ConvState :=
  { query := "how to add users", context := "", response := "", messages := [],
    summary := "The user asked about Webex device setup.", user_name := "Sam" }

/-- Counterexample for C8 as stated: the apigateway start_node maps a state with a
non-empty summary to one whose summary is the empty string. -/
theorem apigw_start_node_wipes_summary :
    summary_state.summary ≠ "" ∧
    (apigw_start_node summary_state).summary = "" ∧
    (apigw_start_node summary_state).summary ≠ summary_state.summary := by decide
